import Mathlib

/-!
# Verification of the `complexity` static analyzer

Shallow embedding of `src/complexity.py`, a symbolic asymptotic-complexity
analyzer built on a computer-algebra kernel (sympy).  The kernel itself is a
third-party library; where its behaviour matters it is modelled on the
fragment the analyzer exercises, following the Expression contract of the
specification (constant folding, canonical collection of like terms,
substitution, bounded summation).

The development has two layers:

* a value-level model of the recurrence closer `repeated` on the family of
  update expressions `e = c·n + P(i)` with concrete integer coefficients
  (this family is closed under sympy's automatic simplification, so the
  branch tests `e.has(i)`, `e.has(n)`, `(e - n).has(n)` and
  `e.as_coeff_add(n)` are computed exactly);
* a syntactic model of the scope / effect store and the statement
  interpreter (`Scope.__init__`, `add_one_step`, `add_effect`, `affect`,
  `__getitem__`, `visit_Return`, `visit_Assign`, `visit_AugAssign`,
  `visit_For`, `termination_function`, and the `visit_Module` loop).
-/

namespace Complexity

/-! ## Part 1: the recurrence closer `repeated` (value level)

`repeated(n, i, e, a, b)` from `src/complexity.py` lines 167-192, modelled on
update expressions of the shape `e = cn·n + P(i)` where `cn : ℤ` and `P` is a
polynomial in the loop index `i` with integer coefficients.  On this family
sympy's canonical form is exactly the pair `(cn, P)`:

* `e.has(i)`        ⟺ some coefficient of `i^k`, `k ≥ 1`, is nonzero;
* `e.has(n)`        ⟺ `cn ≠ 0`;
* `(e - n).has(n)`  ⟺ `cn ≠ 1` (sympy collects like terms on subtraction);
* `e.as_coeff_add(n)` = (the `n`-free part `P`, the single term `cn·n`),
  and `(cn·n / n).simplify() = cn`, which is `n`-free.

The result of `repeated` is represented by its value as a function of the
value of `n` (the claims about `repeated` compare values after substituting
concrete integers). -/

/-- An update expression `e = cn·n + P(i)`: `cn` is the coefficient of the
accumulator symbol `n`, and `pi` lists the coefficients of `1, i, i², …`. -/
structure ExprLin where
  cn : ℤ
  pi : List ℤ
  deriving DecidableEq, Repr

/-- Horner evaluation of a coefficient list at `x`. -/
def polyEval (p : List ℤ) (x : ℤ) : ℤ :=
  p.foldr (fun c acc => c + x * acc) 0

/-- Value of the update expression at given values of `n` and `i`. -/
def ExprLin.evalAt (e : ExprLin) (nv iv : ℤ) : ℤ :=
  e.cn * nv + polyEval e.pi iv

/-- The test `e.has(i)` on the canonical form: some genuine `i`-coefficient nonzero. -/
def ExprLin.hasI (e : ExprLin) : Bool :=
  (e.pi.drop 1).any (fun c => !(c == 0))

/-- The test `e.has(n)` on the canonical form. -/
def ExprLin.hasN (e : ExprLin) : Bool :=
  !(e.cn == 0)

/-- Model of `sympy.summation(f, (i, a, b))`: the sum of `f i` for `i = a, …, b`
(empty when `b < a`).  sympy returns a closed form; only its value is
needed here. -/
def sumIdx (f : ℤ → ℤ) (a b : ℤ) : ℤ :=
  ((List.range (b + 1 - a).toNat).map (fun k : ℕ => f (a + (k:ℤ)))).sum

/-- Model of `repeated(n, i, e, a, b)` from `src/complexity.py`, value level: the
returned closed form as a function of the value of `n`.  The branch
structure follows the source:

* `e.has(i) ∧ e.has(n)`: if `¬(e - n).has(n)` return `n + Σ_{i=a..b} (e-n)`,
  else `raise NotImplementedError("has i and n")`;
* `e.has(i) ∧ ¬e.has(n)`: return `e.subs(i, b)`;
* `¬e.has(i) ∧ e.has(n)`: if `¬(e - n).has(n)` return `n + (e-n)·(b-a+1)`;
  otherwise `c, args = e.as_coeff_add(n); arg, = args` — on this family
  `args = (cn·n,)` and the `n`-free part `c = P` is **discarded** — and
  since `(arg/n).simplify() = cn` never contains `n`, return
  `n · cn^(b-a+1)` (the trailing `raise NotImplementedError` is unreachable
  on this family);
* neither: return `e`.

The exponent `b - a + 1` is taken via `Int.toNat`; all uses have `a ≤ b`. -/
def repeated (e : ExprLin) (a b : ℤ) : Except String (ℤ → ℤ) :=
  if e.hasI then
    if e.hasN then
      if e.cn == 1 then
        .ok (fun n => n + sumIdx (fun iv => polyEval e.pi iv) a b)
      else
        .error "has i and n"
    else
      .ok (fun _ => polyEval e.pi b)
  else
    if e.hasN then
      if e.cn == 1 then
        .ok (fun n => n + polyEval e.pi 0 * (b - a + 1))
      else
        .ok (fun n => n * e.cn ^ (b - a + 1).toNat)
    else
      .ok (fun _ => polyEval e.pi 0)

/-- Reference semantics: apply the update `k` times starting from `n`,
with the iteration index taking the values `a, a+1, …, a+k-1` in order. -/
def unroll (e : ExprLin) (a : ℤ) : ℕ → ℤ → ℤ
  | 0, n => n
  | k + 1, n => e.evalAt (unroll e a k n) (a + k)

/-! ## Part 2: symbolic expressions, scopes and the statement interpreter -/

/-- Symbolic expressions over the kernel fragment the interpreter exercises.
Symbols are `sympy.Dummy` objects, identified by allocation index.  As in
sympy, `a - b` is `a + (-1)·b` and `a / b` is `a · b^(-1)`.  `sumE i t lo hi`
stands for the closed form of `Σ_{i=lo..hi} t` returned by
`sympy.summation` in `repeated`. -/
inductive SExp where
  | int (z : ℤ)
  | sym (s : ℕ)
  | add (a b : SExp)
  | mul (a b : SExp)
  | pow (a b : SExp)
  | sumE (i : ℕ) (t lo hi : SExp)
  deriving DecidableEq, Repr

/-- The test `e.has(sym s)`: occurrence of a symbol.  (The `sumE` binder is not
treated as shadowing; the expressions this is applied to in the modelled
code paths contain no summation nodes.) -/
def hasS (s : ℕ) : SExp → Bool
  | .int _ => false
  | .sym t => t == s
  | .add a b => hasS s a || hasS s b
  | .mul a b => hasS s a || hasS s b
  | .pow a b => hasS s a || hasS s b
  | .sumE _ t lo hi => hasS s t || hasS s lo || hasS s hi

/-- Substitution `e.subs({sym k ↦ v})`: replace every occurrence of symbol `k` by `v`. -/
def substPair (k : ℕ) (v : SExp) : SExp → SExp
  | .int z => .int z
  | .sym t => if t == k then v else .sym t
  | .add a b => .add (substPair k v a) (substPair k v b)
  | .mul a b => .mul (substPair k v a) (substPair k v b)
  | .pow a b => .pow (substPair k v a) (substPair k v b)
  | .sumE i t lo hi =>
      .sumE i (substPair k v t) (substPair k v lo) (substPair k v hi)

/-- Substitution `expr.subs(sub)` for a mapping given as an association list, applying
the pairs sequentially.  sympy sorts a dict's items into a canonical order
before the sequential pass; this model uses insertion order.  The two
agree on every state appearing below (either a single relevant pair, or no
pair's value mentions any key). -/
def substList (subs : List (ℕ × SExp)) (e : SExp) : SExp :=
  subs.foldl (fun acc p => substPair p.1 p.2 acc) e

/-- Rational evaluation of an expression under a symbol assignment
(recursion structurally on the expression).  Exponents are taken through
`ℚ.num` (all modelled exponents are integral), and `sumE` is evaluated as
the finite sum it denotes. -/
def evalSCore : SExp → (ℕ → ℚ) → ℚ
  | .int z, _ => (z : ℚ)
  | .sym s, ρ => ρ s
  | .add a b, ρ => evalSCore a ρ + evalSCore b ρ
  | .mul a b, ρ => evalSCore a ρ * evalSCore b ρ
  | .pow a b, ρ => evalSCore a ρ ^ (evalSCore b ρ).num
  | .sumE i t lo hi, ρ =>
      ((List.range ((evalSCore hi ρ).num - (evalSCore lo ρ).num + 1).toNat).map
        (fun k : ℕ =>
          evalSCore t (fun s => if s = i then evalSCore lo ρ + (k:ℚ) else ρ s))).sum

/-- Rational evaluation of an expression under a symbol assignment. -/
def evalS (ρ : ℕ → ℚ) (e : SExp) : ℚ :=
  evalSCore e ρ

/-- A `Scope` frame: `locals` maps source names to their initial-value
symbols, `steps` is the scope's step-counter symbol, `effects` is the
insertion-ordered effect map, `output` the write-once return value. -/
structure Frame where
  locals : List (String × ℕ)
  steps : ℕ
  effects : List (ℕ × SExp)
  output : Option SExp
  deriving DecidableEq, Repr

instance : Inhabited Frame := ⟨⟨[], 0, [], none⟩⟩

instance {ε α : Type} [DecidableEq ε] [DecidableEq α] :
    DecidableEq (Except ε α) := fun a b =>
  match a, b with
  | .error e, .error e' =>
      decidable_of_iff (e = e') ⟨fun h => by rw [h], fun h => by injection h⟩
  | .ok x, .ok y =>
      decidable_of_iff (x = y) ⟨fun h => by rw [h], fun h => by injection h⟩
  | .error _, .ok _ => isFalse (fun h => Except.noConfusion h)
  | .ok _, .error _ => isFalse (fun h => Except.noConfusion h)

/-- Python dict assignment on an association list: update in place if the
key is present, else append. -/
def upsert (l : List (ℕ × SExp)) (k : ℕ) (v : SExp) : List (ℕ × SExp) :=
  match l with
  | [] => [(k, v)]
  | (k', v') :: rest =>
      if k' == k then (k', v) :: rest else (k', v') :: upsert rest k v

/-- Model of `Scope.affect`: apply the scope's current effects as a substitution
(keys are already symbols, so `self[n] = n`). -/
def Frame.affect (f : Frame) (e : SExp) : SExp :=
  substList f.effects e

/-- Model of `Scope.add_effect` when the target is already a symbol: store
`effects[sym] ← affect(expr)` (write-time normalization). -/
def Frame.addEffectSym (f : Frame) (k : ℕ) (e : SExp) : Frame :=
  { f with effects := upsert f.effects k (f.affect e) }

/-- Name lookup through `Scope._locals` chains (innermost first). -/
def lookupChain : List Frame → String → Option ℕ
  | [], _ => none
  | f :: rest, nm =>
      match f.locals.lookup nm with
      | some s => some s
      | none => lookupChain rest nm

/-- Argument of `Scope.__getitem__`: an AST node (a `TypeError`), a sympy
symbol, or a source name. -/
inductive PyKey where
  | astNode
  | symK (s : ℕ)
  | strK (nm : String)
  deriving DecidableEq, Repr

inductive LookupErr where
  | typeErr
  | keyErr (nm : String)
  deriving DecidableEq, Repr

/-- Model of `Scope.__getitem__`: AST nodes raise `TypeError`; a sympy `Symbol` is
returned unchanged; a string is looked up in `_locals`, recursing into the
parent, with `KeyError` at the root. -/
def getItem (chain : List Frame) : PyKey → Except LookupErr ℕ
  | .astNode => .error .typeErr
  | .symK s => .ok s
  | .strK nm =>
      match chain with
      | [] => .error (.keyErr nm)
      | f :: rest =>
          match f.locals.lookup nm with
          | some s => .ok s
          | none => getItem rest (.strK nm)

/-- Model of `Scope.add_one_step`: walking from the scope to the root, record
`add_effect(s.steps, s.steps + 1)` — always on the **current** scope
(`self.add_effect`), so ancestors' steps symbols become keys of the current
scope's effects. -/
def addOneStep (chain : List Frame) : List Frame :=
  match chain with
  | [] => []
  | f :: rest =>
      (((f :: rest).map Frame.steps).foldl
        (fun g s => g.addEffectSym s (.add (.sym s) (.int 1))) f) :: rest

/-- Model of `Scope.__init__(parent, parameters)`, pushing the new scope on the
chain: fresh symbols `ν, ν+1, …` for the parameters, a fresh `steps`
symbol, empty effects, then `add_effect(steps, 0)` and `add_one_step()`.
Returns the new chain and the next fresh index. -/
def scopeNew (chain : List Frame) (params : List String) (ν : ℕ) :
    List Frame × ℕ :=
  let locals := params.enum.map (fun p => (p.2, ν + p.1))
  let stepsSym := ν + params.length
  let f0 : Frame := ⟨locals, stepsSym, [], none⟩
  let f1 := f0.addEffectSym stepsSym (.int 0)
  (addOneStep (f1 :: chain), stepsSym + 1)

/-- Model of `Scope.add_effect` with a string target: resolve the name through the
scope chain (`self[name]`); if unknown, allocate a fresh symbol as a new
local of the current scope.  The effect is stored in the current scope's
effects, keyed by the resolved symbol — possibly one owned by an
ancestor. -/
def addEffectStr (chain : List Frame) (ν : ℕ) (nm : String) (e : SExp) :
    List Frame × ℕ :=
  match chain with
  | [] => ([], ν)
  | f :: rest =>
      match lookupChain (f :: rest) nm with
      | some k => ((f.addEffectSym k e) :: rest, ν)
      | none =>
          let f' := { f with locals := f.locals ++ [(nm, ν)] }
          ((f'.addEffectSym ν e) :: rest, ν + 1)

/-- The `Scope.output` property setter: write-once, raising
`AttributeError("Output is already set")` when already set. -/
def Frame.outputSet (f : Frame) (x : SExp) : Except String Frame :=
  match f.output with
  | none => .ok { f with output := some x }
  | some _ => .error "Output is already set"

/-- Arithmetic operators handled by `Visitor.binop`. -/
inductive BOp where
  | addOp
  | subOp
  | multOp
  | divOp
  deriving DecidableEq, Repr

/-- Model of `Visitor.binop` on arithmetic operators: sympy builds `l - r` as
`l + (-1)·r` and `l / r` as `l · r^(-1)`. -/
def binop (op : BOp) (l r : SExp) : SExp :=
  match op with
  | .addOp => .add l r
  | .subOp => .add l (.mul (.int (-1)) r)
  | .multOp => .mul l r
  | .divOp => .mul l (.pow r (.int (-1)))

/-- Expression AST nodes handled by the visitor (`Num`, `Name`, `BinOp`). -/
inductive ExprA where
  | num (z : ℤ)
  | name (nm : String)
  | bin (op : BOp) (l r : ExprA)
  deriving DecidableEq, Repr

/-- Interpreter errors (Python exceptions escaping the visit). -/
inductive IErr where
  | unknownName (nm : String)
  | nonRangeFor
  | badRangeArity
  | unsupportedRecurrence (msg : String)
  | noScope
  deriving DecidableEq, Repr

/-- Models of `visit_Num` (a numeric constant), `visit_Name` (the initial-value
symbol found through the scope chain, `KeyError` if absent), and
`visit_BinOp`. -/
def visitExpr (chain : List Frame) : ExprA → Except IErr SExp
  | .num z => .ok (.int z)
  | .name nm =>
      match lookupChain chain nm with
      | some s => .ok (.sym s)
      | none => .error (.unknownName nm)
  | .bin op l r => do
      let a ← visitExpr chain l
      let b ← visitExpr chain r
      .ok (binop op a b)

/-- Entries of the visitor's per-line log (`VisitorBase.log`). -/
inductive LogE where
  | resultL (e : SExp)
  | assignL (nm : String) (e : SExp)
  | iterL (its : Option SExp)
  deriving DecidableEq, Repr

/-- Interpreter state: scope chain (innermost first), next fresh `Dummy`
index, and the report log. -/
structure IState where
  frames : List Frame
  fresh : ℕ
  log : List LogE
  deriving DecidableEq, Repr

instance : Inhabited IState := ⟨⟨[], 0, []⟩⟩

/-- Modelled from the spec: constant folding of a symbol-free expression
(Expression contract, spec §3).  Folding is over the integers (the
modelled programs' literals are integers); a symbol, or a power that does
not fold to an integer, yields `none`. -/
def constZ : SExp → Option ℤ
  | .int z => some z
  | .sym _ => none
  | .add a b => do pure ((← constZ a) + (← constZ b))
  | .mul a b => do pure ((← constZ a) * (← constZ b))
  | .pow a b => do
      let za ← constZ a
      let zb ← constZ b
      if 0 ≤ zb then pure (za ^ zb.toNat) else none
  | .sumE _ _ _ _ => none

/-- Modelled from the spec: decompose `e` as `c·n + d` with `c` a rational
constant and `d` free of the symbol `n`, the way sympy's automatic
collection of like terms backs the tests `(e - n).has(n)` and
`e.as_coeff_add(n)` inside `repeated`.  `none` when `e` is not linear in
`n` with a constant coefficient. -/
def nCoeffSplit (n : ℕ) : SExp → Option (ℤ × SExp)
  | .int z => some (0, .int z)
  | .sym t => if t = n then some (1, .int 0) else some (0, .sym t)
  | .add a b => do
      let pa ← nCoeffSplit n a
      let pb ← nCoeffSplit n b
      pure (pa.1 + pb.1, .add pa.2 pb.2)
  | .mul a b =>
      if hasS n a then
        if hasS n b then none
        else
          match constZ b, nCoeffSplit n a with
          | some zb, some pa => some (pa.1 * zb, .mul pa.2 b)
          | _, _ => none
      else
        if hasS n b then
          match constZ a, nCoeffSplit n b with
          | some za, some pb => some (za * pb.1, .mul a pb.2)
          | _, _ => none
        else some (0, .mul a b)
  | .pow a b => if hasS n a || hasS n b then none else some (0, .pow a b)
  | .sumE i t lo hi =>
      if hasS n t || hasS n lo || hasS n hi then none
      else some (0, .sumE i t lo hi)

/-- Model of `repeated` at the symbolic level used by `visit_For`: same branch
structure as the value-level model above.  The kernel tests go through
`nCoeffSplit`; shapes it cannot decompose fall into the source's
`NotImplementedError` branches. -/
def repeatedS (n i : ℕ) (e a b : SExp) : Except String SExp :=
  if hasS i e then
    if hasS n e then
      match nCoeffSplit n e with
      | some cd =>
          if cd.1 = 1 then .ok (.add (.sym n) (.sumE i cd.2 a b))
          else .error "has i and n"
      | none => .error "has i and n"
    else .ok (substPair i b e)
  else
    if hasS n e then
      match nCoeffSplit n e with
      | some cd =>
          if cd.1 = 1 then
            .ok (.add (.sym n)
              (.mul cd.2 (.add (binop .subOp b a) (.int 1))))
          else
            .ok (.mul (.sym n)
              (.pow (.int cd.1) (.add (binop .subOp b a) (.int 1))))
      | none => .error "NotImplementedError"
    else .ok e

/-- Relational tests produced by `visit_Compare`: sympy `LessThan`,
`GreaterThan`, `StrictLessThan`, `StrictGreaterThan`, and `And` for
chained comparisons. -/
inductive TestE where
  | le (l r : SExp)
  | ge (l r : SExp)
  | lt (l r : SExp)
  | gt (l r : SExp)
  | andE (a b : TestE)
  deriving DecidableEq, Repr

/-- The greater side of a relation (sympy's `Relational.gts`). -/
def gtsSide : TestE → Option SExp
  | .le _ r => some r
  | .lt _ r => some r
  | .ge l _ => some l
  | .gt l _ => some l
  | .andE _ _ => none

/-- The lesser side of a relation (sympy's `Relational.lts`). -/
def ltsSide : TestE → Option SExp
  | .le l _ => some l
  | .lt l _ => some l
  | .ge _ r => some r
  | .gt _ r => some r
  | .andE _ _ => none

/-- The constant subtracted for strict comparisons in
`termination_function`. -/
def strictC : TestE → ℚ
  | .lt _ _ => 1
  | .gt _ _ => 1
  | _ => 0

/-- Model of `termination_function` from the source: `c = 0` for `≤, ≥`, `c = 1`
for `<, >`, any other test raises `NotImplementedError`; the result is
`e.gts - e.lts - c`. -/
def termination_function : TestE → Except String SExp
  | .le l r => .ok (binop .subOp (binop .subOp r l) (.int 0))
  | .ge l r => .ok (binop .subOp (binop .subOp l r) (.int 0))
  | .lt l r => .ok (binop .subOp (binop .subOp r l) (.int 1))
  | .gt l r => .ok (binop .subOp (binop .subOp l r) (.int 1))
  | .andE _ _ => .error "NotImplementedError"

/-- Statements of the modelled sublanguage.  A Python suite (list of
statements) is `seq`/`skip`.  `forRange target fname args body` is
`for target in fname(*args): body`; `visit_For` handles only
`fname = "range"`. -/
inductive Stmt where
  | skip
  | seq (s1 s2 : Stmt)
  | assign (nm : String) (v : ExprA)
  | augAssign (nm : String) (op : BOp) (v : ExprA)
  | ret (v : ExprA)
  | forRange (target fname : String) (args : List ExprA) (body : Stmt)
  deriving DecidableEq, Repr

/-- The folding loop ending `visit_For`: for each inner effect `n ↦ e` in
insertion order, compute `ee = repeated(n, itervar, e, a, b-1)` and
`sc.add_effect(n, ee)` on the outer scope; when `n` is the outer scope's
steps symbol, remember `its = ee - sc.steps` for the iteration-count
log. -/
def foldForEffects (itervar : ℕ) (a bm1 : SExp) (scSteps : ℕ) :
    List (ℕ × SExp) → Frame → Option SExp → Except IErr (Frame × Option SExp)
  | [], sc, its => .ok (sc, its)
  | (n, e) :: rest, sc, its =>
      match repeatedS n itervar e a bm1 with
      | .error msg => .error (.unsupportedRecurrence msg)
      | .ok ee =>
          let its' :=
            if n == scSteps then some (binop .subOp ee (.sym scSteps))
            else its
          foldForEffects itervar a bm1 scSteps rest (sc.addEffectSym n ee) its'

/-- The statement interpreter: `visit_Assign`, `visit_AugAssign`,
`visit_Return` (which only logs `Result: affect(value)` — it does not touch
`Scope.output`), and `visit_For`. -/
def execStmt : Stmt → IState → Except IErr IState
  | .skip, st => .ok st
  | .seq s1 s2, st => do execStmt s2 (← execStmt s1 st)
  | .assign nm v, st => do
      let e ← visitExpr st.frames v
      match st.frames with
      | [] => .error .noScope
      | _ =>
          let p := addEffectStr st.frames st.fresh nm e
          .ok ⟨p.1, p.2, st.log ++ [.assignL nm e]⟩
  | .augAssign nm op v, st => do
      let e ← visitExpr st.frames v
      match st.frames with
      | [] => .error .noScope
      | _ =>
          match lookupChain st.frames nm with
          | none => .error (.unknownName nm)
          | some s =>
              let aug := binop op (.sym s) e
              let p := addEffectStr st.frames st.fresh nm aug
              .ok ⟨p.1, p.2, st.log ++ [.assignL nm aug]⟩
  | .ret v, st => do
      let e ← visitExpr st.frames v
      match st.frames with
      | [] => .error .noScope
      | f :: _ => .ok ⟨st.frames, st.fresh, st.log ++ [.resultL (f.affect e)]⟩
  | .forRange target fname args body, st =>
      if fname = "range" then
        match (match args with
          | [e1] =>
              (do
                let b ← visitExpr st.frames e1
                .ok (SExp.int 0, b) : Except IErr (SExp × SExp))
          | [e1, e2] => do
              let a ← visitExpr st.frames e1
              let b ← visitExpr st.frames e2
              .ok (a, b)
          | _ => .error .badRangeArity) with
        | .error err => .error err
        | .ok ab =>
            let p := scopeNew st.frames [target] st.fresh
            match lookupChain p.1 target with
            | none => .error (.unknownName target)
            | some itervar =>
                match execStmt body ⟨p.1, p.2, st.log⟩ with
                | .error err => .error err
                | .ok st2 =>
                    match st2.frames with
                    | innerF :: scF :: rest =>
                        match foldForEffects itervar ab.1
                            (binop .subOp ab.2 (.int 1)) scF.steps
                            innerF.effects scF none with
                        | .error err => .error err
                        | .ok fin =>
                            .ok ⟨fin.1 :: rest, st2.fresh,
                              st2.log ++ [.iterL fin.2]⟩
                    | _ => .error .noScope
      else .error .nonRangeFor

/-- The `visit_Module` loop: visit each top-level node in order; an
exception from one node propagates (the `try`/`except` in
`VisitorBase.visit` prints a source excerpt and re-raises), aborting the
loop.  Returns the list of nodes actually visited and the first
diagnostic, if any. -/
def visitModuleLoop (analyze : α → Except β Unit) : List α → List α × Option β
  | [] => ([], none)
  | v :: rest =>
      match analyze v with
      | .error d => ([v], some d)
      | .ok _ =>
          let p := visitModuleLoop analyze rest
          (v :: p.1, p.2)

/-- Model of the `unhandled` set maintained by `VisitorBase.generic_visit`:
`self.unhandled.add(type(node).__name__)`.  The list carries the set's
*contents* (duplicates collapse, as in a Python set); its run-time
iteration order is a separate parameter below. -/
def addUnhandled (s : List String) (nm : String) : List String :=
  if nm ∈ s then s else s ++ [nm]

/-- Model of the report epilogue of `visit_FunctionDef`
(`if self.unhandled: print("Unhandled types: %s" % ', '.join(...))`,
lines 234-238): the printed line, as a function of the set's contents *in
its iteration order* `iter`.  Python iterates a `set` in hash order — an
order that depends on `PYTHONHASHSEED`, not on insertion — so `iter`
ranges over the permutations of the contents. -/
def unhandledLine (iter : List String) : Option String :=
  if iter.isEmpty then none
  else some ("Unhandled types: " ++ String.intercalate ", " iter)

/-- A scope's effects map is *closed* when no stored value mentions any
key of the map (the normal situation the write-time `affect` normalization
aims at). -/
def ClosedEffects (l : List (ℕ × SExp)) : Prop :=
  ∀ p ∈ l, ∀ q ∈ l, hasS q.1 p.2 = false

instance (l : List (ℕ × SExp)) : Decidable (ClosedEffects l) := by
  unfold ClosedEffects
  infer_instance

/-- A frame *owns* a symbol when the symbol is the frame's step counter or
one of its locals' initial-value symbols. -/
def owns (f : Frame) (k : ℕ) : Prop :=
  k = f.steps ∨ k ∈ f.locals.map Prod.snd

instance (f : Frame) (k : ℕ) : Decidable (owns f k) := by
  unfold owns
  infer_instance

/-- Scope states reachable by the straight-line scope operations of the
interpreter: the empty chain, pushing a scope (`Scope.__init__`, which runs
`add_effect(steps, 0)` and `add_one_step`), a named `add_effect`
(assignment or augmented assignment), and popping a scope. -/
inductive Reach : List Frame → ℕ → Prop where
  | start : Reach [] 0
  | push {fs ν} (ps : List String) :
      Reach fs ν → Reach (scopeNew fs ps ν).1 (scopeNew fs ps ν).2
  | eff {fs ν} (nm : String) (e : SExp) :
      Reach fs ν → Reach (addEffectStr fs ν nm e).1 (addEffectStr fs ν nm e).2
  | popF {f fs ν} : Reach (f :: fs) ν → Reach fs ν

/-! ### Concrete states used by counterexamples and witnesses -/

/-- The scope chain and state right after entering `def f(n): …`. -/
def fnScope : IState :=
  ⟨(scopeNew [] ["n"] 0).1, (scopeNew [] ["n"] 0).2, []⟩

/-- The function scope after interpreting `n += 1` as the first statement
of `def f(n): …`. -/
def c2frame : Frame :=
  ((execStmt (.augAssign "n" .addOp (.num 1)) fnScope).toOption.getD
    default).frames.headD default

/-- The state produced by interpreting `return 3` in `fnScope`. -/
def c3state : IState :=
  ⟨fnScope.frames, fnScope.fresh, [.resultL (.int 3)]⟩

/-- A parent scope and a freshly pushed child scope (both parameterless). -/
def c8chain : List Frame :=
  (scopeNew ((scopeNew [] [] 0).1) [] ((scopeNew [] [] 0).2)).1

def c8child : Frame := c8chain.headD default

def c8parent : Frame := c8chain.getD 1 default

/-- Pieces of a concrete `visit_For` run: `for i in range(0, n): s = 1`
interpreted in `fnScope`. -/
def c4body : Stmt := .assign "s" (.num 1)

def c4push : List Frame × ℕ := scopeNew fnScope.frames ["i"] fnScope.fresh

def c4st2 : IState :=
  (execStmt c4body ⟨c4push.1, c4push.2, fnScope.log⟩).toOption.getD default

def c4inner : Frame := c4st2.frames.headD default

def c4outer : Frame := (c4st2.frames.drop 1).headD default

def c4rest : List Frame := c4st2.frames.drop 2

def c4fold : Frame × Option SExp :=
  (foldForEffects fnScope.fresh (.int 0) (binop .subOp (.sym 0) (.int 1))
    c4outer.steps c4inner.effects c4outer none).toOption.getD (default, none)

/-! ## Theorems -/

/-- A coefficient list that is all zeros evaluates to `0` everywhere. -/
theorem polyEval_all_zero {p : List ℤ} (h : ∀ c ∈ p, c = 0) (x : ℤ) :
    polyEval p x = 0 := by
  induction p with
  | nil => rfl
  | cons c rest ih =>
    have hc : c = 0 := h c (List.mem_cons_self c rest)
    have hrest : ∀ d ∈ rest, d = 0 := fun d hd => h d (List.mem_cons_of_mem c hd)
    simp [polyEval, List.foldr] at *
    simp [hc, ih hrest]

/-- If no genuine `i`-coefficient is nonzero, the polynomial is constant. -/
theorem polyEval_const {p : List ℤ}
    (h : (p.drop 1).any (fun c => !(c == 0)) = false) (x : ℤ) :
    polyEval p x = polyEval p 0 := by
  cases p with
  | nil => rfl
  | cons c rest =>
    have hz : ∀ d ∈ rest, d = 0 := by
      intro d hd
      have := List.any_eq_false.mp h d hd
      simpa using this
    simp [polyEval, List.foldr]
    have h1 : polyEval rest x = 0 := polyEval_all_zero hz x
    have h2 : polyEval rest 0 = 0 := polyEval_all_zero hz 0
    simp [polyEval] at h1 h2
    simp [h1, h2]

/-- All-zero coefficients mean the update does not mention `i`. -/
theorem hasI_false_of_all_zero {e : ExprLin} (h : ∀ c ∈ e.pi, c = 0) :
    e.hasI = false := by
  simp only [ExprLin.hasI, List.any_eq_false]
  intro c hc
  have : c = 0 := h c (List.mem_of_mem_drop hc)
  simp [this]

/-- Closed form of unrolling when the update is `n + P(i)`. -/
theorem unroll_cn_one {e : ExprLin} (h : e.cn = 1) (a : ℤ) (k : ℕ) (n : ℤ) :
    unroll e a k n
      = n + ((List.range k).map (fun j : ℕ => polyEval e.pi (a + (j:ℤ)))).sum := by
  induction k with
  | zero => simp [unroll]
  | succ m ih =>
    have hstep : unroll e a (m + 1) n = e.evalAt (unroll e a m n) (a + (m:ℤ)) := rfl
    rw [hstep, ExprLin.evalAt, ih, h, List.range_succ, List.map_append,
      List.sum_append]
    simp only [List.map_cons, List.map_nil, List.sum_cons, List.sum_nil]
    ring

/-- Closed form of unrolling when the update is `cn·n` (geometric). -/
theorem unroll_geom {e : ExprLin} (h : ∀ c ∈ e.pi, c = 0) (a : ℤ) (k : ℕ)
    (n : ℤ) : unroll e a k n = e.cn ^ k * n := by
  induction k with
  | zero => simp [unroll]
  | succ m ih =>
    simp only [unroll, ExprLin.evalAt, ih, polyEval_all_zero h]
    ring

/-- When the update is free of `n`, the last application wins. -/
theorem unroll_cn_zero {e : ExprLin} (h : e.cn = 0) (a : ℤ) (k : ℕ) (n : ℤ) :
    unroll e a (k + 1) n = polyEval e.pi (a + k) := by
  simp [unroll, ExprLin.evalAt, h]

/-- Claim C1. For every supported update shape (constant `e`; `e = f(i)` free
of `n`; `e = n + t` with `t` free of `n` and `i`; `e = c·n` with `c` free of
`n` and `i`; `e = n + t(i)` with `t` free of `n`) — i.e. every member of the
family `e = cn·n + P(i)` with `cn ∈ {0, 1}` or `P = 0` — and all concrete
integers `0 ≤ a ≤ b ≤ 5`, `repeated(n, i, e, a, b)` equals the value
obtained by starting from `n` and applying the update `e` (with `i` set to
the current iteration index, running `a, a+1, …, b`) exactly `b − a + 1`
times. -/
theorem repeated_agrees_unroll (e : ExprLin) (a b n : ℤ)
    (h0 : 0 ≤ a) (hab : a ≤ b) (hb5 : b ≤ 5)
    (hsup : e.cn = 0 ∨ e.cn = 1 ∨ ∀ c ∈ e.pi, c = 0) :
    (repeated e a b).map (fun f => f n)
      = .ok (unroll e a (b - a + 1).toNat n) := by
  have hk : ((b - a + 1).toNat : ℤ) = b - a + 1 := by omega
  have hksucc : (b - a + 1).toNat = (b - a).toNat + 1 := by omega
  cases hI : e.hasI with
  | true =>
    cases hN : e.hasN with
    | true =>
      have hcn : e.cn ≠ 0 := by simpa [ExprLin.hasN] using hN
      have hcn1 : e.cn = 1 := by
        rcases hsup with h | h | h
        · exact absurd h hcn
        · exact h
        · have hfalse := hasI_false_of_all_zero h
          rw [hfalse] at hI
          simp at hI
      have heq : repeated e a b
          = .ok (fun n => n + sumIdx (fun iv => polyEval e.pi iv) a b) := by
        simp [repeated, hI, hN, hcn1]
      rw [heq]
      simp only [Except.map]
      congr 1
      rw [unroll_cn_one hcn1]
      congr 1
      simp only [sumIdx]
      have h1 : (b + 1 - a).toNat = (b - a + 1).toNat := by omega
      rw [h1]
    | false =>
      have hcn0 : e.cn = 0 := by simpa [ExprLin.hasN] using hN
      have heq : repeated e a b = .ok (fun _ => polyEval e.pi b) := by
        simp [repeated, hI, hN]
      rw [heq]
      simp only [Except.map]
      congr 1
      rw [hksucc, unroll_cn_zero hcn0]
      have hb : a + (((b - a).toNat : ℕ) : ℤ) = b := by omega
      rw [hb]
  | false =>
    cases hN : e.hasN with
    | true =>
      have hcn : e.cn ≠ 0 := by simpa [ExprLin.hasN] using hN
      by_cases hcn1 : e.cn = 1
      · have heq : repeated e a b
            = .ok (fun n => n + polyEval e.pi 0 * (b - a + 1)) := by
          simp [repeated, hI, hN, hcn1]
        rw [heq]
        simp only [Except.map]
        congr 1
        rw [unroll_cn_one hcn1]
        have hconst : ∀ j : ℕ, polyEval e.pi (a + (j:ℤ)) = polyEval e.pi 0 :=
          fun _ => polyEval_const hI _
        have hmap : (List.range (b - a + 1).toNat).map
            (fun j : ℕ => polyEval e.pi (a + (j:ℤ)))
            = List.replicate (b - a + 1).toNat (polyEval e.pi 0) := by
          refine List.eq_replicate_iff.mpr ⟨by simp, ?_⟩
          intro x hx
          rcases List.mem_map.mp hx with ⟨j, _, hj⟩
          rw [← hj, hconst]
        rw [hmap, List.sum_replicate, nsmul_eq_mul, hk]
        ring
      · have hbeq : (e.cn == 1) = false := by
          simp [hcn1]
        have heq : repeated e a b
            = .ok (fun n => n * e.cn ^ (b - a + 1).toNat) := by
          simp [repeated, hI, hN, hbeq]
        rw [heq]
        simp only [Except.map]
        congr 1
        have hz : ∀ c ∈ e.pi, c = 0 := by
          rcases hsup with h | h | h
          · exact absurd h hcn
          · exact absurd h hcn1
          · exact h
        rw [unroll_geom hz]
        ring
    | false =>
      have hcn0 : e.cn = 0 := by simpa [ExprLin.hasN] using hN
      have heq : repeated e a b = .ok (fun _ => polyEval e.pi 0) := by
        simp [repeated, hI, hN]
      rw [heq]
      simp only [Except.map]
      congr 1
      rw [hksucc, unroll_cn_zero hcn0]
      exact (polyEval_const hI _).symm

/-- Witness for C1: `e = n + i`, `a = 1`, `b = 3`, starting value `10`:
three applications with `i = 1, 2, 3` give `10 + 1 + 2 + 3 = 16`. -/
theorem repeated_agrees_unroll_witness :
    (0:ℤ) ≤ 1 ∧ (1:ℤ) ≤ 3 ∧ (3:ℤ) ≤ 5 ∧
    (ExprLin.mk 1 [0, 1]).cn = 1 ∧
    (repeated ⟨1, [0, 1]⟩ 1 3).map (fun f => f 10)
      = .ok (unroll ⟨1, [0, 1]⟩ 1 ((3:ℤ) - 1 + 1).toNat 10) :=
  ⟨by decide, by decide, by decide, rfl,
   repeated_agrees_unroll ⟨1, [0, 1]⟩ 1 3 10 (by decide) (by decide)
     (by decide) (Or.inr (Or.inl rfl))⟩

/-- Claim C6 (code bug). The claim says `repeated` fails with `UnsupportedRecurrence` on
`e = c·n + d` with `c ∉ {0, 1}` and `d ≠ 0`.  The code instead falls into
the geometric branch: `e.as_coeff_add(n)` returns the `n`-free part `d` and
the single `n`-term `c·n`, the code binds the `n`-free part but never uses
it, and returns `n·c^(b−a+1)`, silently dropping `d`.  At `e = 2·n + 3`,
`a = b = 0`, starting value `1`: the code returns the closed form `2·n`
(value `2`), no error is raised, while one true application of the update
gives `2·1 + 3 = 5` — contradicting both the claim and the code's own
semantics comment (`# let n_a = n; n_{a+k+1} = e(...); return n_b`). -/
theorem repeated_affine_drops_constant :
    (repeated ⟨2, [3]⟩ 0 0).map (fun f => f 1) = .ok 2 ∧
    unroll ⟨2, [3]⟩ 0 1 1 = 5 := by
  constructor
  · rfl
  · rfl

/-! ### Scope lookup (C10) -/

/-- Claim C10. `Scope.__getitem__` applied directly to a sympy `Symbol`
returns it unchanged (`s[x] = x`) for every scope chain — neither the
scope's locals nor any parent is consulted; only string names are resolved
through the scope chain (innermost first), and a name absent from every
enclosing scope raises `KeyError`. -/
theorem getitem_spec :
    (∀ (chain : List Frame) (s : ℕ), getItem chain (.symK s) = .ok s) ∧
    (∀ (f : Frame) (rest : List Frame) (nm : String),
      getItem (f :: rest) (.strK nm)
        = match f.locals.lookup nm with
          | some s => .ok s
          | none => getItem rest (.strK nm)) ∧
    (∀ (chain : List Frame) (nm : String),
      (∀ f ∈ chain, f.locals.lookup nm = none) →
        getItem chain (.strK nm) = .error (.keyErr nm)) := by
  refine ⟨fun chain s => ?_, fun f rest nm => ?_, fun chain nm h => ?_⟩
  · cases chain <;> rfl
  · cases hl : f.locals.lookup nm <;> simp [getItem, hl]
  · induction chain with
    | nil => rfl
    | cons f rest ih =>
        have hf := h f (List.mem_cons_self f rest)
        have hrest := ih (fun g hg => h g (List.mem_cons_of_mem f hg))
        simp [getItem, hf, hrest]

/-- Witness for C10 at a concrete chain. -/
theorem getitem_spec_witness :
    getItem [Frame.mk [("x", 5)] 0 [] none] (.symK 9) = .ok 9 ∧
    getItem [Frame.mk [("x", 5)] 0 [] none] (.strK "y")
      = .error (.keyErr "y") :=
  ⟨getitem_spec.1 [Frame.mk [("x", 5)] 0 [] none] 9,
   getitem_spec.2.2 [Frame.mk [("x", 5)] 0 [] none] "y" (by decide)⟩

/-! ### Termination function (C5) -/

/-- Claim C5. For a while-loop test that is one of the comparisons `L ≤ R`,
`L ≥ R`, `L < R`, `L > R`, the termination function equals the
comparison's greater side minus its lesser side for the non-strict forms,
and that difference minus `1` for the strict forms (stated at the level of
values under every symbol assignment); for any other test expression
(e.g. the `And` of a chained comparison) it fails with
`NotImplementedError`. -/
theorem termination_function_spec :
    (∀ (t : TestE) (g l : SExp) (ρ : ℕ → ℚ),
      gtsSide t = some g → ltsSide t = some l →
        (termination_function t).map (evalS ρ)
          = .ok (evalS ρ g - evalS ρ l - strictC t)) ∧
    (∀ t : TestE, gtsSide t = none →
      termination_function t = .error "NotImplementedError") := by
  constructor
  · intro t g l ρ hg hl
    cases t with
    | andE a b => simp [gtsSide] at hg
    | le L R =>
        simp only [gtsSide, Option.some.injEq] at hg
        simp only [ltsSide, Option.some.injEq] at hl
        subst hg; subst hl
        simp only [termination_function, Except.map, strictC, evalS, evalSCore,
          binop]
        congr 1
        ring
    | ge L R =>
        simp only [gtsSide, Option.some.injEq] at hg
        simp only [ltsSide, Option.some.injEq] at hl
        subst hg; subst hl
        simp only [termination_function, Except.map, strictC, evalS, evalSCore,
          binop]
        congr 1
        ring
    | lt L R =>
        simp only [gtsSide, Option.some.injEq] at hg
        simp only [ltsSide, Option.some.injEq] at hl
        subst hg; subst hl
        simp only [termination_function, Except.map, strictC, evalS, evalSCore,
          binop]
        congr 1
        ring
    | gt L R =>
        simp only [gtsSide, Option.some.injEq] at hg
        simp only [ltsSide, Option.some.injEq] at hl
        subst hg; subst hl
        simp only [termination_function, Except.map, strictC, evalS, evalSCore,
          binop]
        congr 1
        ring
  · intro t ht
    cases t <;> simp_all [gtsSide, termination_function]

/-- Witness for C5 on the strict test `x₀ < x₁` under the assignment
`ρ s = s`. -/
theorem termination_function_spec_witness :
    (termination_function (.lt (.sym 0) (.sym 1))).map (evalS (fun s => (s:ℚ)))
      = .ok (evalS (fun s => (s:ℚ)) (.sym 1) - evalS (fun s => (s:ℚ)) (.sym 0)
          - strictC (.lt (.sym 0) (.sym 1))) :=
  termination_function_spec.1 (.lt (.sym 0) (.sym 1)) (.sym 1) (.sym 0) _
    rfl rfl

/-! ### Module loop (C7) -/

/-- Claim C7, counterexample. A module of two top-level functions where the
first analysis fails: the loop visits only the first function — the second
is never attempted, contradicting the claim that analysis of subsequent
top-level functions is still attempted. -/
theorem module_loop_aborts :
    visitModuleLoop
      (fun v : ℕ => if v = 0 then Except.error "diagnostic" else .ok ())
      [0, 1]
      = ([0], some "diagnostic") := by
  rfl

/-- Claim C7, amended. When analysis of a top-level function fails, the
diagnostic propagates — `VisitorBase.visit` prints a source excerpt to
stderr and re-raises at every enclosing node, and nothing catches the
exception — so the `visit_Module` loop attempts exactly the functions up
to and including the failing one; subsequent functions are not
attempted. -/
theorem module_loop_stops_at_failure {α β : Type} (analyze : α → Except β Unit)
    (pre post : List α) (v : α) (d : β)
    (hpre : ∀ u ∈ pre, analyze u = .ok ())
    (hv : analyze v = .error d) :
    visitModuleLoop analyze (pre ++ v :: post) = (pre ++ [v], some d) := by
  induction pre with
  | nil => simp [visitModuleLoop, hv]
  | cons u rest ih =>
      have hu : analyze u = .ok () := hpre u (List.mem_cons_self u rest)
      have ih' := ih (fun x hx => hpre x (List.mem_cons_of_mem u hx))
      simp [visitModuleLoop, hu, ih']

/-- Witness for C7 (amended): five functions, the third fails. -/
theorem module_loop_stops_at_failure_witness :
    visitModuleLoop
      (fun v : ℕ => if v = 2 then Except.error "diagnostic" else .ok ())
      ([0, 1] ++ 2 :: [3, 4]) = ([0, 1] ++ [2], some "diagnostic") :=
  module_loop_stops_at_failure _ [0, 1] [3, 4] 2 "diagnostic"
    (by intro u hu; fin_cases hu <;> rfl) rfl

/-! ### Return statements (C3) -/

/-- Claim C3, counterexample. Interpreting `return 1` then `return 2` in the
same function scope succeeds — no `MultipleReturns` error — and the
scope's `output` is still unset afterwards: `visit_Return` only logs
`Result: affect(value)`; it never stores the visited value in
`Scope.output`. -/
theorem visit_return_counterexample :
    (execStmt (.seq (.ret (.num 1)) (.ret (.num 2))) fnScope).isOk = true ∧
    (((execStmt (.seq (.ret (.num 1)) (.ret (.num 2))) fnScope).toOption.getD
        default).frames.headD default).output = none := by
  constructor
  · rfl
  · rfl

/-- Claim C3, amended. `visit_Return` computes `affect(visit(value))` and
appends it to the log, leaving every frame — in particular the scope's
`output` — unchanged; a second `Return` in the same scope therefore also
just logs, and no `MultipleReturns` error is raised.  The `Scope.output`
property setter itself (never invoked by the interpreter) is write-once:
assigning when already set raises `AttributeError`. -/
theorem visit_return_logs_only :
    (∀ (st : IState) (v : ExprA) (st' : IState),
      execStmt (.ret v) st = .ok st' →
        st'.frames = st.frames ∧ st'.fresh = st.fresh ∧
        ∃ e f rest, visitExpr st.frames v = .ok e ∧ st.frames = f :: rest ∧
          st'.log = st.log ++ [.resultL (f.affect e)]) ∧
    (∀ (f : Frame) (x : SExp),
      (f.output = none → f.outputSet x = .ok { f with output := some x }) ∧
      ∀ y, f.output = some y →
        f.outputSet x = .error "Output is already set") := by
  constructor
  · intro st v st' h
    simp only [execStmt] at h
    cases hv : visitExpr st.frames v with
    | error err => rw [hv] at h; exact Except.noConfusion h
    | ok e =>
        rw [hv] at h
        cases hf : st.frames with
        | nil => rw [hf] at h; exact Except.noConfusion h
        | cons f rest =>
            rw [hf] at h
            have h' : IState.mk (f :: rest) st.fresh
                (st.log ++ [.resultL (f.affect e)]) = st' := by
              injection h
            subst h'
            exact ⟨rfl, rfl, e, f, rest, rfl, rfl, rfl⟩
  · intro f x
    constructor
    · intro h
      simp [Frame.outputSet, h]
    · intro y h
      simp [Frame.outputSet, h]

/-- Witness for C3 (amended): `return 3` in the fresh function scope. -/
theorem visit_return_logs_only_witness :
    c3state.frames = fnScope.frames ∧ c3state.fresh = fnScope.fresh ∧
    ∃ e f rest, visitExpr fnScope.frames (.num 3) = .ok e ∧
      fnScope.frames = f :: rest ∧
      c3state.log = fnScope.log ++ [.resultL (f.affect e)] :=
  visit_return_logs_only.1 fnScope (.num 3) c3state (by decide)

/-! ### Effect substitution and idempotence (C2) -/

/-- Substituting a symbol that does not occur leaves the expression
unchanged (sympy's `subs` likewise returns the expression itself). -/
theorem substPair_of_not_has {k : ℕ} {v e : SExp} (h : hasS k e = false) :
    substPair k v e = e := by
  induction e with
  | int z => rfl
  | sym t =>
      simp only [hasS, beq_eq_false_iff_ne, ne_eq] at h
      simp [substPair, h]
  | add a b iha ihb =>
      simp only [hasS, Bool.or_eq_false_iff] at h
      simp [substPair, iha h.1, ihb h.2]
  | mul a b iha ihb =>
      simp only [hasS, Bool.or_eq_false_iff] at h
      simp [substPair, iha h.1, ihb h.2]
  | pow a b iha ihb =>
      simp only [hasS, Bool.or_eq_false_iff] at h
      simp [substPair, iha h.1, ihb h.2]
  | sumE i t lo hi iht ihlo ihhi =>
      simp only [hasS, Bool.or_eq_false_iff] at h
      simp [substPair, iht h.1.1, ihlo h.1.2, ihhi h.2]

/-- Substitution does not create occurrences of a symbol absent from both
the expression and the replacement. -/
theorem hasS_substPair_false {s k : ℕ} {v e : SExp}
    (he : hasS s e = false) (hv : hasS s v = false) :
    hasS s (substPair k v e) = false := by
  induction e with
  | int z => simpa [substPair, hasS]
  | sym t =>
      by_cases htk : t = k
      · simpa [substPair, htk] using hv
      · simpa [substPair, htk] using he
  | add a b iha ihb =>
      simp only [hasS, Bool.or_eq_false_iff] at he
      simp [substPair, hasS, iha he.1, ihb he.2]
  | mul a b iha ihb =>
      simp only [hasS, Bool.or_eq_false_iff] at he
      simp [substPair, hasS, iha he.1, ihb he.2]
  | pow a b iha ihb =>
      simp only [hasS, Bool.or_eq_false_iff] at he
      simp [substPair, hasS, iha he.1, ihb he.2]
  | sumE i t lo hi iht ihlo ihhi =>
      simp only [hasS, Bool.or_eq_false_iff] at he
      simp [substPair, hasS, iht he.1.1, ihlo he.1.2, ihhi he.2]

/-- Substituting `k ↦ v` with `v` free of `k` eliminates `k`. -/
theorem hasS_substPair_self {k : ℕ} {v : SExp} (hv : hasS k v = false)
    (e : SExp) : hasS k (substPair k v e) = false := by
  induction e with
  | int z => simp [substPair, hasS]
  | sym t =>
      by_cases htk : t = k
      · simpa [substPair, htk] using hv
      · simp [substPair, hasS, htk]
  | add a b iha ihb => simp [substPair, hasS, iha, ihb]
  | mul a b iha ihb => simp [substPair, hasS, iha, ihb]
  | pow a b iha ihb => simp [substPair, hasS, iha, ihb]
  | sumE i t lo hi iht ihlo ihhi => simp [substPair, hasS, iht, ihlo, ihhi]

/-- A sequential substitution none of whose keys occur is the identity. -/
theorem substList_id {l : List (ℕ × SExp)} {e : SExp}
    (h : ∀ p ∈ l, hasS p.1 e = false) : substList l e = e := by
  induction l with
  | nil => rfl
  | cons p rest ih =>
      show substList rest (substPair p.1 p.2 e) = e
      rw [substPair_of_not_has (h p (List.mem_cons_self p rest))]
      exact ih (fun q hq => h q (List.mem_cons_of_mem p hq))

/-- A sequential substitution whose values avoid `s` cannot introduce
`s`. -/
theorem hasS_substList_false {s : ℕ} {l : List (ℕ × SExp)}
    (hl : ∀ p ∈ l, hasS s p.2 = false) {e : SExp} (he : hasS s e = false) :
    hasS s (substList l e) = false := by
  induction l generalizing e with
  | nil => exact he
  | cons p rest ih =>
      show hasS s (substList rest (substPair p.1 p.2 e)) = false
      exact ih (fun q hq => hl q (List.mem_cons_of_mem p hq))
        (hasS_substPair_false he (hl p (List.mem_cons_self p rest)))

/-- After applying a closed effect map, no key occurs in the result. -/
theorem closed_substList_key_free :
    ∀ (l : List (ℕ × SExp)), ClosedEffects l →
      ∀ p ∈ l, ∀ (e : SExp), hasS p.1 (substList l e) = false := by
  intro l
  induction l with
  | nil => intro _ p hp; cases hp
  | cons q rest ih =>
      intro hc p hp e
      show hasS p.1 (substList rest (substPair q.1 q.2 e)) = false
      have hcrest : ClosedEffects rest := fun x hx y hy =>
        hc x (List.mem_cons_of_mem q hx) y (List.mem_cons_of_mem q hy)
      rcases List.mem_cons.mp hp with hpq | hp'
      · subst hpq
        have hpv : hasS p.1 p.2 = false :=
          hc p (List.mem_cons_self p rest) p (List.mem_cons_self p rest)
        exact hasS_substList_false
          (fun r hr => hc r (List.mem_cons_of_mem p hr) p
            (List.mem_cons_self p rest))
          (hasS_substPair_self hpv e)
      · exact ih hcrest p hp' (substPair q.1 q.2 e)

/-- Claim C2, amended. `affect` is idempotent on every scope whose stored
effect values mention no effect key: `affect(affect(e)) = affect(e)` for
every expression `e`.  The interpreter does **not** maintain this
precondition in all reachable states — the first augmented assignment to a
not-yet-assigned variable stores an effect whose value mentions its own
key (see the counterexample) — but write-time normalization keeps it
whenever every recorded value is key-free. -/
theorem affect_idempotent_of_closed (f : Frame)
    (h : ClosedEffects f.effects) (e : SExp) :
    f.affect (f.affect e) = f.affect e := by
  apply substList_id
  intro p hp
  exact closed_substList_key_free f.effects h p hp e

/-- Witness for C2 (amended) on a closed two-effect scope. -/
theorem affect_idempotent_of_closed_witness :
    ClosedEffects (Frame.mk [("x", 0)] 1 [(1, .int 1), (0, .int 5)] none).effects ∧
    (Frame.mk [("x", 0)] 1 [(1, .int 1), (0, .int 5)] none).affect
        ((Frame.mk [("x", 0)] 1 [(1, .int 1), (0, .int 5)] none).affect
          (.add (.sym 0) (.sym 1)))
      = (Frame.mk [("x", 0)] 1 [(1, .int 1), (0, .int 5)] none).affect
          (.add (.sym 0) (.sym 1)) :=
  ⟨by decide, affect_idempotent_of_closed _ (by decide) _⟩

/-- Claim C2, counterexample. Interpreting `n += 1` as the first statement of
`def f(n): …` stores the effect `n₀ ↦ n₀ + 1`, whose value mentions its own
key; `affect` is then not idempotent: at `n₀ = 0`, `affect(n₀)` evaluates
to `1` while `affect(affect(n₀))` evaluates to `2`, so
`affect(affect(n₀)) ≠ affect(n₀)` also as sympy expressions. -/
theorem affect_not_idempotent :
    (execStmt (.augAssign "n" .addOp (.num 1)) fnScope).isOk = true ∧
    c2frame.affect (c2frame.affect (.sym 0)) ≠ c2frame.affect (.sym 0) ∧
    evalS (fun _ => 0) (c2frame.affect (c2frame.affect (.sym 0)))
      ≠ evalS (fun _ => 0) (c2frame.affect (.sym 0)) := by
  have ha1 : c2frame.affect (.sym 0) = .add (.sym 0) (.int 1) := by decide
  have ha2 : c2frame.affect (c2frame.affect (.sym 0))
      = .add (.add (.sym 0) (.int 1)) (.int 1) := by
    rw [ha1]; decide
  refine ⟨rfl, ?_, ?_⟩
  · rw [ha2, ha1]
    decide
  · rw [ha2, ha1]
    simp [evalS, evalSCore]

/-! ### Effect-key ownership (C8) -/

/-- Keys of a dict after assignment: the assigned key or an old key. -/
theorem upsert_mem {l : List (ℕ × SExp)} {k : ℕ} {v : SExp} {p : ℕ × SExp}
    (hp : p ∈ upsert l k v) : p.1 = k ∨ ∃ q ∈ l, p.1 = q.1 := by
  induction l with
  | nil =>
      simp only [upsert, List.mem_singleton] at hp
      subst hp
      exact Or.inl rfl
  | cons q rest ih =>
      simp only [upsert] at hp
      split at hp
      · rcases List.mem_cons.mp hp with hpq | hp'
        · subst hpq
          exact Or.inr ⟨q, List.mem_cons_self q rest, rfl⟩
        · exact Or.inr ⟨p, List.mem_cons_of_mem q hp', rfl⟩
      · rcases List.mem_cons.mp hp with hpq | hp'
        · subst hpq
          exact Or.inr ⟨q, List.mem_cons_self q rest, rfl⟩
        · rcases ih hp' with hk | ⟨r, hr, hpr⟩
          · exact Or.inl hk
          · exact Or.inr ⟨r, List.mem_cons_of_mem q hr, hpr⟩

/-- Keys of `add_effect(sym, e)`: the new key or an old key. -/
theorem addEffectSym_mem {f : Frame} {k : ℕ} {e : SExp} {p : ℕ × SExp}
    (hp : p ∈ (f.addEffectSym k e).effects) :
    p.1 = k ∨ ∃ q ∈ f.effects, p.1 = q.1 :=
  upsert_mem hp

/-- The `add_one_step` fold preserves locals, steps and output. -/
theorem stepFold_frame (syms : List ℕ) (acc : Frame) :
    ((syms.foldl (fun g s => g.addEffectSym s (.add (.sym s) (.int 1)))
        acc).locals = acc.locals) ∧
    ((syms.foldl (fun g s => g.addEffectSym s (.add (.sym s) (.int 1)))
        acc).steps = acc.steps) ∧
    ((syms.foldl (fun g s => g.addEffectSym s (.add (.sym s) (.int 1)))
        acc).output = acc.output) := by
  induction syms generalizing acc with
  | nil => exact ⟨rfl, rfl, rfl⟩
  | cons s rest ih => exact ih (acc.addEffectSym s (.add (.sym s) (.int 1)))

/-- Keys produced by the `add_one_step` fold: a stepped symbol or an old
key. -/
theorem stepFold_mem {syms : List ℕ} {acc : Frame} {p : ℕ × SExp}
    (hp : p ∈ ((syms.foldl
        (fun g s => g.addEffectSym s (.add (.sym s) (.int 1)))
        acc)).effects) :
    p.1 ∈ syms ∨ ∃ q ∈ acc.effects, p.1 = q.1 := by
  induction syms generalizing acc with
  | nil => exact Or.inr ⟨p, hp, rfl⟩
  | cons s rest ih =>
      rcases ih hp with
        h | ⟨q, hq, hpq⟩
      · exact Or.inl (List.mem_cons_of_mem s h)
      · rcases addEffectSym_mem hq with hk | ⟨r, hr, hqr⟩
        · exact Or.inl (hpq ▸ hk ▸ List.mem_cons_self s rest)
        · exact Or.inr ⟨r, hr, hpq.trans hqr⟩

/-- Structure of a freshly pushed scope: it sits on top of the old chain,
its locals are the parameters, and every key of its effects is its own
steps symbol or an ancestor's steps symbol. -/
theorem scopeNew_eq (fs : List Frame) (ps : List String) (ν : ℕ) :
    ∃ nf : Frame, (scopeNew fs ps ν).1 = nf :: fs ∧
      nf.locals = ps.enum.map (fun p => (p.2, ν + p.1)) ∧
      nf.steps = ν + ps.length ∧
      nf.output = none ∧
      (∀ p ∈ nf.effects, p.1 = ν + ps.length ∨ p.1 ∈ fs.map Frame.steps) ∧
      (scopeNew fs ps ν).2 = ν + ps.length + 1 := by
  refine ⟨_, rfl, ?_, ?_, ?_, ?_, rfl⟩
  · exact (stepFold_frame _ _).1
  · exact (stepFold_frame _ _).2.1
  · exact (stepFold_frame _ _).2.2
  · intro p hp
    have hmem := stepFold_mem hp
    rcases hmem with h | ⟨q, hq, hpq⟩
    · simp only [List.map_cons, List.mem_cons] at h
      rcases h with h | h
      · exact Or.inl h
      · exact Or.inr h
    · rcases addEffectSym_mem hq with hk | ⟨r, hr, _⟩
      · exact Or.inl (hpq.trans hk)
      · cases hr

/-- A successful association-list lookup finds a stored pair. -/
theorem lookup_mem_pairs {l : List (String × ℕ)} {nm : String} {s : ℕ}
    (h : l.lookup nm = some s) : (nm, s) ∈ l := by
  induction l with
  | nil => simp [List.lookup] at h
  | cons p rest ih =>
      obtain ⟨k, v⟩ := p
      simp only [List.lookup] at h
      cases hk : (nm == k) with
      | true =>
          rw [hk] at h
          injection h with h
          subst h
          have hkeq : nm = k := by simpa using hk
          subst hkeq
          exact List.mem_cons_self _ _
      | false =>
          rw [hk] at h
          exact List.mem_cons_of_mem _ (ih h)

/-- A symbol found by chain lookup is a local of some frame of the
chain. -/
theorem lookupChain_owner {fs : List Frame} {nm : String} {k : ℕ}
    (h : lookupChain fs nm = some k) :
    ∃ g ∈ fs, k ∈ g.locals.map Prod.snd := by
  induction fs with
  | nil => simp [lookupChain] at h
  | cons f rest ih =>
      simp only [lookupChain] at h
      cases hl : f.locals.lookup nm with
      | some s =>
          rw [hl] at h
          injection h with h
          subst h
          refine ⟨f, List.mem_cons_self f rest, ?_⟩
          exact List.mem_map.mpr ⟨(nm, s), lookup_mem_pairs hl, rfl⟩
      | none =>
          rw [hl] at h
          rcases ih h with ⟨g, hg, hk⟩
          exact ⟨g, List.mem_cons_of_mem f hg, hk⟩

/-- Ownership survives adding locals. -/
theorem owns_locals_append {f : Frame} {more : List (String × ℕ)} {k : ℕ}
    (h : owns f k) : owns { f with locals := f.locals ++ more } k := by
  rcases h with h | h
  · exact Or.inl h
  · refine Or.inr ?_
    simp only [List.map_append, List.mem_append]
    exact Or.inl h

/-- Claim C8, amended. In every state reachable by the straight-line scope
operations (scope creation, named `add_effect`, scope pop), every key of a
scope's effects map is a symbol owned by that scope **or by an ancestor
scope** — never a symbol of an unrelated scope.  The original claim (keys
appear only in the scope that owns them) fails already at scope creation,
where `add_one_step` records the ancestors' steps symbols in the new
scope's own effects; loop folding (`visit_For`'s `sc.add_effect(n, ee)`)
additionally installs popped inner-scope symbols in the outer scope, which
is why the fold is excluded here. -/
theorem reach_effects_keys_owned {fs : List Frame} {ν : ℕ} (h : Reach fs ν) :
    ∀ f tl, (f :: tl) <:+ fs → ∀ p ∈ f.effects,
      owns f p.1 ∨ ∃ g ∈ tl, owns g p.1 := by
  induction h with
  | start =>
      intro f tl hsuf p hp
      rcases hsuf with ⟨t, ht⟩
      simp at ht
  | @push fs ν ps hr ih =>
      intro f tl hsuf p hp
      obtain ⟨nf, heq, hlocals, hsteps, _, heff, _⟩ := scopeNew_eq fs ps ν
      rw [heq] at hsuf
      rcases List.suffix_cons_iff.mp hsuf with heq2 | hsuf'
      · have hf : f = nf := by injection heq2
        have htl : tl = fs := by injection heq2
        subst hf; subst htl
        rcases heff p hp with hk | hk
        · exact Or.inl (Or.inl (hk.trans hsteps.symm))
        · rcases List.mem_map.mp hk with ⟨g, hg, hgs⟩
          exact Or.inr ⟨g, hg, Or.inl hgs.symm⟩
      · exact ih f tl hsuf' p hp
  | @eff fs ν nm e hr ih =>
      intro f tl hsuf p hp
      cases fs with
      | nil =>
          rcases hsuf with ⟨t, ht⟩
          simp [addEffectStr] at ht
      | cons f0 rest =>
          simp only [addEffectStr] at hsuf
          cases hlk : lookupChain (f0 :: rest) nm with
          | some k =>
              rw [hlk] at hsuf
              rcases List.suffix_cons_iff.mp hsuf with heq2 | hsuf'
              · have hf : f = f0.addEffectSym k e := by injection heq2
                have htl : tl = rest := by injection heq2
                subst hf; subst htl
                rcases addEffectSym_mem hp with hk1 | ⟨q, hq, hpq⟩
                · rcases lookupChain_owner hlk with ⟨g, hg, hkg⟩
                  rcases List.mem_cons.mp hg with hg0 | hgr
                  · subst hg0
                    exact Or.inl (Or.inr (hk1 ▸ hkg))
                  · exact Or.inr ⟨g, hgr, Or.inr (hk1 ▸ hkg)⟩
                · rcases ih f0 tl (List.suffix_refl _) q hq with how | hanc
                  · exact Or.inl (hpq ▸ how)
                  · rcases hanc with ⟨g, hg, hog⟩
                    exact Or.inr ⟨g, hg, hpq ▸ hog⟩
              · exact ih f tl
                  (hsuf'.trans (List.suffix_cons f0 rest)) p hp
          | none =>
              rw [hlk] at hsuf
              rcases List.suffix_cons_iff.mp hsuf with heq2 | hsuf'
              · have hf : f = ({ f0 with
                    locals := f0.locals ++ [(nm, ν)] } : Frame).addEffectSym
                      ν e := by injection heq2
                have htl : tl = rest := by injection heq2
                subst hf; subst htl
                rcases addEffectSym_mem hp with hk1 | ⟨q, hq, hpq⟩
                · refine Or.inl (Or.inr ?_)
                  show p.1 ∈ (f0.locals ++ [(nm, ν)]).map Prod.snd
                  simp only [List.map_append, List.mem_append]
                  exact Or.inr (by simp [hk1])
                · rcases ih f0 tl (List.suffix_refl _) q hq with how | hanc
                  · exact Or.inl (hpq ▸ owns_locals_append how)
                  · rcases hanc with ⟨g, hg, hog⟩
                    exact Or.inr ⟨g, hg, hpq ▸ hog⟩
              · exact ih f tl
                  (hsuf'.trans (List.suffix_cons f0 rest)) p hp
  | @popF f0 fs ν hr ih =>
      intro f tl hsuf p hp
      exact ih f tl (hsuf.trans (List.suffix_cons f0 fs)) p hp

/-- The two-frame chain `c8chain` is reachable by two scope pushes. -/
theorem c8chain_reach :
    Reach c8chain ((scopeNew ((scopeNew [] [] 0).1) [] ((scopeNew [] [] 0).2)).2) :=
  Reach.push [] (Reach.push [] Reach.start)

/-- Claim C8, counterexample. Immediately after pushing a child scope,
`add_one_step` has recorded the **parent's** steps symbol (symbol `0`) as
a key of the child's own effects map: the child does not own it, the
parent does — refuting the claim that a symbol appears as an effects key
only in the scope that owns it. -/
theorem child_effects_hold_parent_steps :
    (∃ p ∈ c8child.effects, p.1 = c8parent.steps) ∧
    ¬ owns c8child c8parent.steps ∧
    owns c8parent c8parent.steps := by
  refine ⟨?_, ?_, ?_⟩
  · decide
  · decide
  · decide

/-- Witness for C8 (amended): the parent-steps key `0` in the child's
effects is owned by an ancestor. -/
theorem reach_effects_keys_owned_witness :
    owns c8child 0 ∨ ∃ g ∈ [c8parent], owns g 0 :=
  reach_effects_keys_owned c8chain_reach c8child [c8parent]
    ⟨[], by decide⟩ (0, .add (.sym 0) (.int 1)) (by decide)

/-! ### For-loop folding (C4) -/

/-- Pushing a scope with a single parameter (the loop index). -/
theorem scopeNew_single (fs : List Frame) (t : String) (ν : ℕ) :
    ∃ nf : Frame, (scopeNew fs [t] ν).1 = nf :: fs ∧
      nf.locals = [(t, ν)] ∧ nf.steps = ν + 1 ∧ nf.output = none ∧
      (scopeNew fs [t] ν).2 = ν + 2 := by
  obtain ⟨nf, h1, h2, h3, h4, _, h6⟩ := scopeNew_eq fs [t] ν
  refine ⟨nf, h1, ?_, h3, h4, h6⟩
  rw [h2]
  simp [List.enum]

/-- The loop index resolves to its fresh symbol in the pushed scope. -/
theorem lookupChain_single (nf : Frame) (fs : List Frame) (t : String)
    (ν : ℕ) (h : nf.locals = [(t, ν)]) :
    lookupChain (nf :: fs) t = some ν := by
  simp [lookupChain, h, List.lookup]

/-- If the `visit_For` fold succeeds, every inner effect was closed by
`repeated` with the loop bounds. -/
theorem foldForEffects_ok_all {itervar : ℕ} {a bm1 : SExp} {scSteps : ℕ} :
    ∀ (effs : List (ℕ × SExp)) (sc : Frame) (its : Option SExp)
      (res : Frame × Option SExp),
      foldForEffects itervar a bm1 scSteps effs sc its = .ok res →
      ∀ p ∈ effs, (repeatedS p.1 itervar p.2 a bm1).isOk = true := by
  intro effs
  induction effs with
  | nil => intro _ _ _ _ p hp; cases hp
  | cons q rest ih =>
      intro sc its res h p hp
      obtain ⟨n, e⟩ := q
      simp only [foldForEffects] at h
      cases hr : repeatedS n itervar e a bm1 with
      | error msg => rw [hr] at h; exact Except.noConfusion h
      | ok ee =>
          rw [hr] at h
          rcases List.mem_cons.mp hp with hpq | hp'
          · subst hpq
            rw [hr]
            rfl
          · exact ih _ _ _ h p hp'

/-- Claim C4. For a for-loop whose iterator is the call `range(e1, e2)` with
bounds `a = visit(e1)`, `b = visit(e2)` (visited in the current scope),
the interpreter pushes a fresh scope whose only local is the loop index
(bound to the fresh symbol `st.fresh`), interprets the body there, and
then folds each inner-scope effect `sym ↦ e` — in insertion order — into
the outer scope as `add_effect(sym, repeated(sym, idx, e, a, b-1))`, so
the index takes the values `a, …, b-1`; finally the inner scope is popped
and the iteration count is logged.  The one-argument form `range(u)`
behaves exactly as `range(0, u)`; a non-`range` iterator or any other
arity fails. -/
theorem visitFor_range_spec :
    (∀ (st : IState) (target : String) (e1 e2 : ExprA) (body : Stmt)
       (a b : SExp) (frames1 : List Frame) (ν1 : ℕ) (inner outer : Frame)
       (rest : List Frame) (ν2 : ℕ) (log2 : List LogE) (folded : Frame)
       (its : Option SExp),
      visitExpr st.frames e1 = .ok a →
      visitExpr st.frames e2 = .ok b →
      scopeNew st.frames [target] st.fresh = (frames1, ν1) →
      execStmt body ⟨frames1, ν1, st.log⟩ = .ok ⟨inner :: outer :: rest, ν2, log2⟩ →
      foldForEffects st.fresh a (binop .subOp b (.int 1)) outer.steps
          inner.effects outer none = .ok (folded, its) →
        execStmt (.forRange target "range" [e1, e2] body) st
          = .ok ⟨folded :: rest, ν2, log2 ++ [.iterL its]⟩ ∧
        (∃ nf, frames1 = nf :: st.frames ∧ nf.locals = [(target, st.fresh)] ∧
          nf.steps = st.fresh + 1 ∧ nf.output = none) ∧
        (∀ p ∈ inner.effects,
          (repeatedS p.1 st.fresh p.2 a (binop .subOp b (.int 1))).isOk
            = true)) ∧
    (∀ (st : IState) (target : String) (u : ExprA) (body : Stmt),
      execStmt (.forRange target "range" [u] body) st
        = execStmt (.forRange target "range" [ExprA.num 0, u] body) st) ∧
    (∀ (st : IState) (target fname : String) (args : List ExprA)
       (body : Stmt), fname ≠ "range" →
      execStmt (.forRange target fname args body) st = .error .nonRangeFor) ∧
    (∀ (st : IState) (target : String) (body : Stmt)
       (e1 e2 e3 : ExprA) (more : List ExprA),
      execStmt (.forRange target "range" (e1 :: e2 :: e3 :: more) body) st
        = .error .badRangeArity ∧
      execStmt (.forRange target "range" [] body) st
        = .error .badRangeArity) := by
  refine ⟨?_, ?_, ?_, ?_⟩
  · intro st target e1 e2 body a b frames1 ν1 inner outer rest ν2 log2
      folded its h1 h2 h3 h4 h5
    obtain ⟨nf, hnf1, hnf2, hnf3, hnf4, hnf5⟩ :=
      scopeNew_single st.frames target st.fresh
    have hframes1 : frames1 = nf :: st.frames := by
      have := congrArg Prod.fst h3
      rw [hnf1] at this
      exact this.symm
    have hlk : lookupChain frames1 target = some st.fresh := by
      rw [hframes1]
      exact lookupChain_single nf st.frames target st.fresh hnf2
    refine ⟨?_, ⟨nf, hframes1, hnf2, hnf3, hnf4⟩,
      foldForEffects_ok_all inner.effects outer none (folded, its) h5⟩
    simp only [execStmt, if_pos rfl, h1, h2, h3, hlk, h4, if_true]
    show (match foldForEffects st.fresh a (binop BOp.subOp b (SExp.int 1))
        outer.steps inner.effects outer none with
      | Except.error err => Except.error err
      | Except.ok fin =>
          Except.ok (⟨fin.1 :: rest, ν2, log2 ++ [LogE.iterL fin.2]⟩ : IState))
      = Except.ok (⟨folded :: rest, ν2, log2 ++ [LogE.iterL its]⟩ : IState)
    rw [h5]
  · intro st target u body
    simp only [execStmt, if_pos rfl]
    cases hu : visitExpr st.frames u <;> rfl
  · intro st target fname args body hne
    simp only [execStmt, if_neg hne]
  · intro st target body e1 e2 e3 more
    constructor <;> rfl

/-- Witness for C4: `for i in range(0, n): s = 1` interpreted in the
function scope of `def f(n): …`. -/
theorem visitFor_range_spec_witness :
    execStmt (.forRange "i" "range" [.num 0, .name "n"] c4body) fnScope
      = .ok ⟨c4fold.1 :: c4rest, c4st2.fresh, c4st2.log ++ [.iterL c4fold.2]⟩ ∧
    (∃ nf, c4push.1 = nf :: fnScope.frames ∧
      nf.locals = [("i", fnScope.fresh)] ∧
      nf.steps = fnScope.fresh + 1 ∧ nf.output = none) ∧
    (∀ p ∈ c4inner.effects,
      (repeatedS p.1 fnScope.fresh p.2 (.int 0)
        (binop .subOp (.sym 0) (.int 1))).isOk = true) :=
  visitFor_range_spec.1 fnScope "i" (.num 0) (.name "n") c4body
    (.int 0) (.sym 0) c4push.1 c4push.2 c4inner c4outer c4rest
    c4st2.fresh c4st2.log c4fold.1 c4fold.2
    rfl rfl rfl (by decide) (by decide)

/-! ### Determinism of the report (C9) -/

/-- Claim C9, counterexample.  The "Unhandled types: …" report line joins
a Python `set` in its iteration order, which is hash order (varying with
`PYTHONHASHSEED` across runs), not insertion order.  For the two-kind
unhandled set built by inserting "If" then "While" — reachable from a
function body containing an `if` and a `while` statement, both unhandled
node kinds — the two possible iteration orders are permutations of the
same contents yet print different report lines, so two runs of the
analyzer on the same parsed source need not produce identical output. -/
theorem unhandled_line_order_dependent :
    addUnhandled (addUnhandled [] "If") "While" = ["If", "While"] ∧
    (["If", "While"] : List String).Perm ["While", "If"] ∧
    unhandledLine ["If", "While"] ≠ unhandledLine ["While", "If"] := by
  refine ⟨by decide, ?_, by decide⟩
  exact List.Perm.swap "While" "If" []

/-- Claim C9, amended.  For a fixed input tree the report is a
deterministic function of the parsed source *together with* the iteration
order of the `unhandled` set; it is independent of that order only when
at most one node kind is unhandled — in particular, when every node kind
is handled, no "Unhandled types" line is printed and two runs agree.
The set's contents themselves do not depend on the order: insertion keeps
them duplicate-free, so the iteration order is the sole run-to-run
degree of freedom. -/
theorem unhandledLine_order_invariant :
    (∀ iterA iterB : List String, iterA.Perm iterB → iterA.length ≤ 1 →
      unhandledLine iterA = unhandledLine iterB) ∧
    (∀ (s : List String) (nm : String), s.Nodup →
      (addUnhandled s nm).Nodup) := by
  constructor
  · intro iterA iterB hperm hlen
    cases iterA with
    | nil => rw [hperm.symm.eq_nil]
    | cons a t =>
        cases t with
        | nil => rw [List.perm_singleton.mp hperm.symm]
        | cons b t2 => simp at hlen
  · intro s nm hs
    by_cases hmem : nm ∈ s
    · simpa [addUnhandled, hmem] using hs
    · simp [addUnhandled, hmem, List.nodup_append, hs]

/-- Witness for C9 (amended): a singleton iteration order (forced equal by
the permutation hypothesis), and a concrete duplicate-free insertion. -/
theorem unhandledLine_order_invariant_witness :
    unhandledLine ["If"] = unhandledLine ["If"] ∧
    (addUnhandled ["If"] "While").Nodup :=
  ⟨unhandledLine_order_invariant.1 ["If"] ["If"] (List.Perm.refl _)
    (by decide),
   unhandledLine_order_invariant.2 ["If"] "While" (by decide)⟩

end Complexity
